import Mathlib

/-!
Verification of the GLM model-fitting engine of `rfest` (file
`rfest/GLM/_glm.py`) against its natural-language specification.

The Python constructs relevant to the frozen claims are shallowly embedded
as executable Lean definitions: machine floats are modelled by rationals
(with an explicit extended-value type where the code manipulates IEEE
infinities), Python dictionaries by association lists, raising by
`Except`/a tagged result type, and the optimizer loop by a fueled
recursive function over abstract per-iteration cost sequences.  All
theorems are stated at the end of the file.
-/

/- ===================================================================
   C1.  `GLM.compute_mle` (lines 405-444): concatenated design layout
   and the slicing of the flat least-squares solution.

   The design matrix is
       X = [ 1 | 1 X_0 | 1 X_1 | ... ]
   (line 416-419): one prepended global-intercept column, then for every
   registered filter a column of ones followed by its `n_features[name]`
   feature columns.  Hence the flat solution vector `mle` has layout
       [ global, (intercept_0, w_0...), (intercept_1, w_1...), ... ].

   The slicing (lines 431-442) uses
       l = cumsum([0, nf_0 + 1, nf_1 + 1, ...]);  idx[i] = (l[i], l[i+1])
   and takes `intercept_i = mle[l[i]]`, `weights_i = mle[l[i]+1 : l[i+1]]`.
   ================================================================= -/

/-- Cumulative offset `l[i]` computed at line 431: the sum of
`n_features + 1` over the first `i` filters, starting at 0. -/
def mleOffset (nfs : List ℕ) (i : ℕ) : ℕ :=
  ((nfs.take i).map (fun nf => nf + 1)).sum

/-- Number of columns of the concatenated design matrix built at lines
416-419: one global-intercept column plus `1 + n_features` per filter. -/
def mleDesignWidth (nfs : List ℕ) : ℕ :=
  1 + (nfs.map (fun nf => nf + 1)).sum

/-- Per-filter intercept as the code extracts it (line 437):
`mle_params[0]` of the slice `mle[l[i] : l[i+1]]`. -/
def mleInterceptCode (m : List ℚ) (nfs : List ℕ) (i : ℕ) : ℚ :=
  m.getD (mleOffset nfs i) 0

/-- Per-filter raw weight block as the code extracts it (lines 439-442):
`mle_params[1:]` of the slice `mle[l[i] : l[i+1]]`. -/
def mleWeightsCode (m : List ℚ) (nfs : List ℕ) (i : ℕ) : List ℚ :=
  (m.drop (mleOffset nfs i + 1)).take (nfs.getD i 0)

/-- Global intercept as the code extracts it (line 444): `mle[0]`. -/
def mleGlobalCode (m : List ℚ) : ℚ := m.getD 0 0

/-- Modelled from the spec: per-filter intercept under the layout the
design-matrix construction dictates, with the per-filter blocks laid out
after the single prepended global-intercept column. -/
def mleInterceptSpec (m : List ℚ) (nfs : List ℕ) (i : ℕ) : ℚ :=
  m.getD (1 + mleOffset nfs i) 0

/-- Modelled from the spec: per-filter weight block under the layout the
design-matrix construction dictates (block of filter `i` starts at
`1 + l[i]`). -/
def mleWeightsSpec (m : List ℚ) (nfs : List ℕ) (i : ℕ) : List ℚ :=
  (m.drop (1 + mleOffset nfs i + 1)).take (nfs.getD i 0)

/- ===================================================================
   C2.  `GLM.cost` (lines 509-558), without the elastic-net branch
   (`penalize=False`; the claim is about the unpenalized cost).

   Predicted responses may contain IEEE infinities, which the Poisson
   branch manipulates explicitly, so they are modelled by an extended
   value type.  `jnp.log` is transcendental and treated as an abstract
   function parameter.  The Gaussian branch is modelled on finite
   predictions (the claim states it on real-valued predictions).
   ================================================================= -/

/-- An extended floating value: a finite rational, `+inf`, or `-inf`. -/
inductive EV where
  | fin (q : ℚ)
  | pinf
  | ninf
deriving DecidableEq

/-- Finite part of an extended value (the embedded code only reads it on
entries proved finite). -/
def evToQ : EV → ℚ
  | EV.fin q => q
  | EV.pinf => 0
  | EV.ninf => 0

/-- Elementwise `jnp.where(r != jnp.inf, r, 0.)` (line 540): replaces
`+inf` entries by 0. -/
def whereNotInf (r : List EV) : List EV :=
  r.map (fun v => if v = EV.pinf then EV.fin 0 else v)

/-- `jnp.maximum(v, q)` on one extended value. -/
def evMax (v : EV) (q : ℚ) : EV :=
  match v with
  | EV.fin a => EV.fin (max a q)
  | EV.pinf => EV.pinf
  | EV.ninf => EV.fin q

/-- Elementwise `jnp.maximum(r, q)` (line 541). -/
def floorAt (r : List EV) (q : ℚ) : List EV :=
  r.map (fun v => evMax v q)

/-- The literal `1e-20` of line 541. -/
def eps20 : ℚ := 1 / 10 ^ 20

/-- `GLM.cost` with `penalize=False` (lines 530-547): the distribution
dispatch, the Gaussian squared error, the Poisson branch with its
inf-removal and flooring, and the `NotImplementedError` fallthrough.
`log` abstracts `jnp.log`. -/
def cost (log : ℚ → ℚ) (distr : String) (y : List ℚ) (r : List EV) :
    Except String ℚ :=
  if distr = "gaussian" then
    Except.ok ((1 / 2) * (List.zipWith (fun yi ri => (yi - evToQ ri) ^ 2) y r).sum)
  else if distr = "poisson" then
    let r1 := whereNotInf r
    let r2 := floorAt r1 eps20
    let term0 := -(List.zipWith (fun ri yi => log (evToQ ri) * yi) r2 y).sum
    let term1 := (r2.map evToQ).sum
    Except.ok (term0 + term1)
  else
    Except.error ("NotImplementedError: " ++ distr)

/-- Modelled from the spec: the claimed transformed prediction, namely
`r` with infinite entries replaced by 0 and then floored at `1e-20`. -/
def rPrimeSpec (r : List EV) : List ℚ :=
  r.map (fun v =>
    match v with
    | EV.fin q => max q eps20
    | EV.pinf => max 0 eps20
    | EV.ninf => max 0 eps20)

/- ===================================================================
   C6.  `GLM.compute_score` (lines 863-883).  The metric functions
   themselves are external (`rfest.metrics`), so their values are
   abstract arguments.  The final `else` branch prints a message and
   falls off the end of the function, i.e. returns Python `None`; a
   tagged result type separates returning from raising.
   ================================================================= -/

/-- Result of a Python call: either a returned value or a raised
exception. -/
inductive PyRes (α : Type) where
  | ret (a : α)
  | exn (msg : String)
deriving DecidableEq

/-- True exactly on the raised case. -/
def PyRes.raised {α : Type} : PyRes α → Bool
  | PyRes.ret _ => false
  | PyRes.exn _ => true

/-- The metric names `GLM.compute_score` dispatches on. -/
def supportedMetrics : List String :=
  ["r2", "r2adj", "mse", "corrcoef", "gcv"]

/-- `GLM.compute_score` (lines 863-883).  The five supported metrics
return the external metric value; any other name reaches the `else`
branch, which prints and returns `None`. -/
def compute_score (metric : String) (r2v r2adjv msev corrv gcvv : ℚ) :
    PyRes (Option ℚ) :=
  if metric = "r2" then PyRes.ret (some r2v)
  else if metric = "r2adj" then PyRes.ret (some r2adjv)
  else if metric = "mse" then PyRes.ret (some msev)
  else if metric = "corrcoef" then PyRes.ret (some corrv)
  else if metric = "gcv" then PyRes.ret (some gcvv)
  else PyRes.ret none

/- ===================================================================
   C7.  Burn-in handling of `GLM.add_design_matrix` (lines 215-226).

   On every call: if the model has no `burn_in` attribute yet, it is set
   to `dims[0] - 1` (or the explicit argument); then, if `lag` is false,
   it is overwritten with 0.  The model-level burn-in state is an
   `Option ℕ` (`none` = attribute absent).
   ================================================================= -/

/-- The arguments of one `add_design_matrix` call that the burn-in logic
reads: the first filter dimension, the optional `burn_in` argument, and
the `lag` flag. -/
structure BurnCall where
  dims0 : ℕ
  burnArg : Option ℕ
  lag : Bool
deriving DecidableEq

/-- Burn-in state transition of one `add_design_matrix` call
(lines 215-226). -/
def stepBurn (st : Option ℕ) (c : BurnCall) : Option ℕ :=
  let st1 := match st with
    | none => some (match c.burnArg with
        | none => c.dims0 - 1
        | some b => b)
    | some b => some b
  if c.lag then st1 else some 0

/-- Burn-in state after a sequence of `add_design_matrix` calls. -/
def runBurn (st : Option ℕ) (cs : List BurnCall) : Option ℕ :=
  cs.foldl stepBurn st

/- ===================================================================
   C3, C4, C5, C10.  `GLM.optimize` (lines 586-732) and the
   selection-policy replacement in `GLM.fit` (lines 778-779).

   The per-iteration train/dev costs are produced by JAX gradient steps;
   the embedding abstracts them as sequences `ℕ → ℚ` and models the
   loop's control flow exactly: one record per iteration, the early-stop
   checks guarded by `tolerance and i > 300`, the window slices
   `cost[i - tolerance : i]`, the `for/else` maxiter exit, and the
   `return_model` dispatch on the retained `[:i+1]` traces.  Natural
   subtraction `i - tolerance` coincides with the numpy slice start
   whenever `tolerance ≤ 301`, since checks only happen at `i ≥ 301`;
   the fidelity hypothesis `tolerance ≤ 301` marks that regime.
   ================================================================= -/

/-- The three exit reasons of the optimizer loop. -/
inductive StopReason where
  | devStop
  | trainStop
  | maxiterStop
deriving DecidableEq

/-- The optimizer inputs the loop control flow reads: whether a dev
split exists (`'dev' in self.y`), the `tolerance` argument, and the
abstract per-iteration train and dev cost sequences. -/
structure OptCfg where
  hasDev : Bool
  tol : ℕ
  costT : ℕ → ℚ
  costD : ℕ → ℚ

/-- The slice `c[i - tol : i]` of a cost sequence (the window the
early-stop checks read, lines 664 and 672). -/
def window (c : ℕ → ℚ) (tol i : ℕ) : List ℚ :=
  (List.range tol).map (fun k => c (i - tol + k))

/-- `np.diff`: consecutive differences. -/
def npDiff (l : List ℚ) : List ℚ :=
  List.zipWith (fun a b => b - a) l l.tail

/-- The literal `1e-5` of line 672. -/
def tol1e5 : ℚ := 1 / 10 ^ 5

/-- The dev early-stop condition of line 664:
`'dev' in self.y and np.all(np.diff(cost_dev[i - tolerance:i]) > 0)`. -/
def devCondB (cfg : OptCfg) (i : ℕ) : Bool :=
  cfg.hasDev && (npDiff (window cfg.costD cfg.tol i)).all (fun d => decide (0 < d))

/-- The train early-stop condition of line 672:
`np.all(np.diff(cost_train[i - tolerance:i]) < 1e-5)`. -/
def trainCondB (cfg : OptCfg) (i : ℕ) : Bool :=
  (npDiff (window cfg.costT cfg.tol i)).all (fun d => decide (d < tol1e5))

/-- Whether iteration `i` triggers any early stop, including the
`tolerance and i > 300` guard of line 660. -/
def triggerB (cfg : OptCfg) (i : ℕ) : Bool :=
  (decide (cfg.tol ≠ 0) && decide (300 < i)) && (devCondB cfg i || trainCondB cfg i)

/-- Outcome of the optimizer loop: the final value of the loop variable
`i`, the stop reason, and the per-iteration records
`(i, cost_train[i], cost_dev[i])` (one appended per executed iteration,
like `params_list` and the assignments into the cost/metric arrays). -/
structure OptResult where
  iFinal : ℕ
  reason : StopReason
  trace : List (ℕ × ℚ × ℚ)

/-- The `for i in range(num_iters)` loop of lines 639-686, as a fueled
recursion: record the iteration (standing for the assignments into
`cost_train`, `cost_dev`, the metric arrays, and the append to
`params_list`, all performed exactly once per executed iteration), then
run the guarded early-stop checks; exhausting the fuel is the `for/else`
maxiter exit (where Python leaves `i` at `num_iters - 1`). -/
def loopGo (cfg : OptCfg) : ℕ → ℕ → List (ℕ × ℚ × ℚ) → OptResult
  | 0, i, acc => ⟨i - 1, StopReason.maxiterStop, acc⟩
  | fuel + 1, i, acc =>
      if cfg.tol ≠ 0 ∧ 300 < i then
        if devCondB cfg i then
          ⟨i, StopReason.devStop, acc ++ [(i, cfg.costT i, cfg.costD i)]⟩
        else if trainCondB cfg i then
          ⟨i, StopReason.trainStop, acc ++ [(i, cfg.costT i, cfg.costD i)]⟩
        else loopGo cfg fuel (i + 1) (acc ++ [(i, cfg.costT i, cfg.costD i)])
      else loopGo cfg fuel (i + 1) (acc ++ [(i, cfg.costT i, cfg.costD i)])

/-- The whole loop of `GLM.optimize` for `num_iters` iterations. -/
def optRun (cfg : OptCfg) (numIters : ℕ) : OptResult :=
  loopGo cfg numIters 0 []

/-- The retained trace `xs[:i + 1]` (lines 719-726). -/
def retainedRec (res : OptResult) : List (ℕ × ℚ × ℚ) :=
  res.trace.take (res.iFinal + 1)

/-- The recorded train-cost array. -/
def recTrainCosts (res : OptResult) : List ℚ :=
  res.trace.map (fun t => t.2.1)

/-- The recorded dev-cost array. -/
def recDevCosts (res : OptResult) : List ℚ :=
  res.trace.map (fun t => t.2.2)

/-- The retained dev-cost trace `cost_dev[:i + 1]`. -/
def devTraceRetained (res : OptResult) : List ℚ :=
  (recDevCosts res).take (res.iFinal + 1)

/-- Invariants tying a loop outcome to the configuration, for a loop
started at iteration `i0` with `fuel` remaining iterations; established
by `loopGo_spec`. -/
def LoopSpec (cfg : OptCfg) (i0 fuel : ℕ) (res : OptResult) : Prop :=
  (∀ j, j < res.trace.length → res.trace[j]? = some (j, cfg.costT j, cfg.costD j)) ∧
  (res.reason = StopReason.maxiterStop →
      res.iFinal = i0 + fuel - 1 ∧ res.trace.length = i0 + fuel ∧
      ∀ j, i0 ≤ j → j < i0 + fuel → triggerB cfg j = false) ∧
  (res.reason ≠ StopReason.maxiterStop →
      i0 ≤ res.iFinal ∧ res.iFinal < i0 + fuel ∧
      res.trace.length = res.iFinal + 1 ∧
      cfg.tol ≠ 0 ∧ 300 < res.iFinal ∧
      ∀ j, i0 ≤ j → j < res.iFinal → triggerB cfg j = false) ∧
  (res.reason = StopReason.devStop → devCondB cfg res.iFinal = true) ∧
  (res.reason = StopReason.trainStop →
      trainCondB cfg res.iFinal = true ∧ devCondB cfg res.iFinal = false)

/-- `np.argmin`: index of the first occurrence of the minimum (0 on an
empty array, matching no claimed behavior). -/
def npArgmin : List ℚ → ℕ
  | [] => 0
  | [_] => 0
  | x :: y :: rest =>
      let j := npArgmin (y :: rest)
      if (y :: rest).getD j 0 < x then j + 1 else 0

/-- `np.argmax`: index of the first occurrence of the maximum. -/
def npArgmax : List ℚ → ℕ
  | [] => 0
  | [_] => 0
  | x :: y :: rest =>
      let j := npArgmax (y :: rest)
      if x < (y :: rest).getD j 0 then j + 1 else 0

/-- The `return_model` dispatch of lines 688-714 picking the returned
trace index `best` from the retained `[:i+1]` traces: argmin of dev or
train cost, argmin/argmax of a metric trace, `last` (backing up by
`tolerance` after a dev stop), and the warned fallback to
`best_dev_cost` for unrecognized policies. -/
def selectIdx (returnModel metric : String) (cT cD mT mD : List ℚ)
    (i tol : ℕ) (stop : StopReason) : ℕ :=
  if returnModel = "best_dev_cost" then npArgmin (cD.take (i + 1))
  else if returnModel = "best_train_cost" then npArgmin (cT.take (i + 1))
  else if returnModel = "best_dev_metric" then
    (if metric = "mse" ∨ metric = "gcv" then npArgmin (mD.take (i + 1))
     else npArgmax (mD.take (i + 1)))
  else if returnModel = "best_train_metric" then
    (if metric = "mse" ∨ metric = "gcv" then npArgmin (mT.take (i + 1))
     else npArgmax (mT.take (i + 1)))
  else if returnModel = "last" then
    (if stop = StopReason.devStop then i - tol else i)
  else npArgmin (cD.take (i + 1))

/-- The policy replacement of `GLM.fit` lines 778-779:
`if not 'dev' in self.y: return_model = 'last'`. -/
def fitReturnModel (hasDev : Bool) (requested : String) : String :=
  if hasDev then requested else "last"

/-- A concrete optimizer configuration with a dev split, used by
witnesses. -/
def cfgDev : OptCfg :=
  ⟨true, 10, fun k => (k : ℚ), fun k => (k : ℚ) + 1⟩

/-- A concrete optimizer configuration without a dev split, used by
witnesses. -/
def cfgNoDev : OptCfg :=
  ⟨false, 10, fun k => (k : ℚ), fun _ => 0⟩

/- ===================================================================
   C8, C9.  Subunit expansion in `GLM.initialize` (lines 315-366).

   Python dictionaries are modelled as association lists over string
   keys; subscript reads and `pop` raise `KeyError` (modelled with
   `Except`), `if key in d` is a containment test, and `d[k] = v`
   replaces or appends.  The expansion: remove `stimulus` from the
   filter-name list (a `ValueError` when absent), prepend the
   `stimulus_s{i}` aliases, copy every `stimulus`-containing name's
   attributes from the original (lines 322-349), pop every `stimulus`
   entry (lines 351-364, with the unguarded `self.X['dev']` access),
   and install the new name list (line 366).
   ================================================================= -/

/-- Association-list model of one Python dict with string keys. -/
abbrev Fm (α : Type) : Type := List (String × α)

/-- Dict lookup, `d.get(k)`. -/
def fmGet {α : Type} (m : Fm α) (k : String) : Option α :=
  (m.find? (fun p => p.1 == k)).map Prod.snd

/-- Removal of a key (used by `pop` and by assignment). -/
def fmErase {α : Type} (m : Fm α) (k : String) : Fm α :=
  m.filter (fun p => !(p.1 == k))

/-- Dict assignment `d[k] = v`. -/
def fmSet {α : Type} (m : Fm α) (k : String) (v : α) : Fm α :=
  (k, v) :: fmErase m k

/-- Containment test `k in d`. -/
def fmHas {α : Type} (m : Fm α) (k : String) : Bool :=
  (fmGet m k).isSome

/-- `d.pop(k)`: removal, raising `KeyError` when the key is absent. -/
def fmPop {α : Type} (m : Fm α) (k : String) : Except String (Fm α) :=
  if fmHas m k then Except.ok (fmErase m k)
  else Except.error ("KeyError: " ++ k)

/-- Subscript read `d[k]`, raising `KeyError` when the key is absent. -/
def keyGet {α : Type} (m : Fm α) (k : String) : Except String α :=
  match fmGet m k with
  | some v => Except.ok v
  | none => Except.error ("KeyError: " ++ k)

/-- Whether `sub` is an initial segment of `s`. -/
def isPrefOf : List Char → List Char → Bool
  | [], _ => true
  | _ :: _, [] => false
  | a :: as, b :: bs => a == b && isPrefOf as bs

/-- Whether `sub` occurs somewhere inside `s`. -/
def hasSub (sub : List Char) : List Char → Bool
  | [] => isPrefOf sub []
  | c :: rest => isPrefOf sub (c :: rest) || hasSub sub rest

/-- The Python test `'stimulus' in name` on a filter name. -/
def containsStim (name : String) : Bool :=
  hasSub "stimulus".data name.data

/-- The alias name `f'stimulus_s{i}'`. -/
def subName (i : ℕ) : String := "stimulus_s" ++ toString i

/-- The alias list `[f'stimulus_s{i}' for i in range(num_subunits)]`. -/
def subunitNames (ns : ℕ) : List String :=
  (List.range ns).map subName

/-- The per-model state the subunit expansion reads and writes, for the
fixed initialization method: the registered filter names and, keyed by
filter name, the dims, df, shift and filter-nonlinearity entries, the
method's intercepts, weights, optional weight standard errors, spline
coefficients and their optional standard errors, the train design
matrices, the optional dev design matrices, the optional basis-projected
train/dev matrices, the spline and penalty matrices, and the effective
degrees of freedom.  `none` on an optional dict means the corresponding
key (`method` in `w_se`/`b_se`, `'dev'` in `X`, `'train'`/`'dev'` in
`XS`) is absent. -/
structure SubState where
  filter_names : List String
  dims : Fm (List ℕ)
  df : Fm (List ℕ)
  shift : Fm ℤ
  fnl : Fm String
  intercept : Fm ℚ
  w : Fm (List ℚ)
  wSe : Option (Fm (List ℚ))
  b : Fm (List ℚ)
  bSe : Option (Fm (List ℚ))
  Xtrain : Fm (List (List ℚ))
  Xdev : Option (Fm (List (List ℚ)))
  XStrain : Option (Fm (List (List ℚ)))
  XSdev : Option (Fm (List (List ℚ)))
  S : Fm (List (List ℚ))
  P : Fm (List (List ℚ))
  edf : Fm ℚ
deriving DecidableEq

/-- Line 331-332: `if method in self.w_se:
self.w_se[method][name] = self.w_se[method]['stimulus']`. -/
def stWSe (name : String) (st : SubState) : Except String SubState :=
  match st.wSe with
  | none => Except.ok st
  | some m =>
      match keyGet m "stimulus" with
      | Except.error e => Except.error e
      | Except.ok v => Except.ok { st with wSe := some (fmSet m name v) }

/-- Lines 336-337: `if 'dev' in self.X:
self.X['dev'][name] = self.X['dev']['stimulus']`. -/
def stXdevCopy (name : String) (st : SubState) : Except String SubState :=
  match st.Xdev with
  | none => Except.ok st
  | some m =>
      match keyGet m "stimulus" with
      | Except.error e => Except.error e
      | Except.ok v => Except.ok { st with Xdev := some (fmSet m name v) }

/-- Lines 341-342: `if method in self.b_se:
self.b_se[method][name] = self.b_se[method]['stimulus']`. -/
def stBSe (name : String) (st : SubState) : Except String SubState :=
  match st.bSe with
  | none => Except.ok st
  | some m =>
      match keyGet m "stimulus" with
      | Except.error e => Except.error e
      | Except.ok v => Except.ok { st with bSe := some (fmSet m name v) }

/-- Line 343: `self.XS['train'][name] = self.XS['train']['stimulus']`
(the `'train'` subscript itself can raise). -/
def stXSt (name : String) (st : SubState) : Except String SubState :=
  match st.XStrain with
  | none => Except.error "KeyError: train"
  | some m =>
      match keyGet m "stimulus" with
      | Except.error e => Except.error e
      | Except.ok v => Except.ok { st with XStrain := some (fmSet m name v) }

/-- Lines 345-346: `if 'dev' in self.XS:
self.XS['dev'][name] = self.XS['dev']['stimulus']`. -/
def stXSd (name : String) (st : SubState) : Except String SubState :=
  match st.XSdev with
  | none => Except.ok st
  | some m =>
      match keyGet m "stimulus" with
      | Except.error e => Except.error e
      | Except.ok v => Except.ok { st with XSdev := some (fmSet m name v) }

/-- Lines 339-349: the block guarded by `if 'stimulus' in self.S`,
copying spline-related entries to the alias. -/
def stSBlock (name : String) (st : SubState) : Except String SubState :=
  if fmHas st.S "stimulus" then
    match keyGet st.b "stimulus" with
    | Except.error e => Except.error e
    | Except.ok bv =>
        match stBSe name { st with b := fmSet st.b name bv } with
        | Except.error e => Except.error e
        | Except.ok st2 =>
            match stXSt name st2 with
            | Except.error e => Except.error e
            | Except.ok st3 =>
                match stXSd name st3 with
                | Except.error e => Except.error e
                | Except.ok st4 =>
                    match keyGet st4.P "stimulus" with
                    | Except.error e => Except.error e
                    | Except.ok pv =>
                        match keyGet st4.S "stimulus" with
                        | Except.error e => Except.error e
                        | Except.ok sv =>
                            Except.ok { st4 with
                              P := fmSet st4.P name pv,
                              S := fmSet st4.S name sv }
  else Except.ok st

/-- Lines 322-349: one iteration of the copy loop, with the
`if 'stimulus' in name` guard and the attribute copies in source
order (`df` receives `dims['stimulus']`, as the source does). -/
def copyStim (st : SubState) (name : String) : Except String SubState :=
  if containsStim name then
    match keyGet st.dims "stimulus" with
    | Except.error e => Except.error e
    | Except.ok d =>
        let stA := { st with dims := fmSet st.dims name d }
        match keyGet stA.dims "stimulus" with
        | Except.error e => Except.error e
        | Except.ok d2 =>
            let stB := { stA with df := fmSet stA.df name d2 }
            match keyGet stB.shift "stimulus" with
            | Except.error e => Except.error e
            | Except.ok sh =>
                let stC := { stB with shift := fmSet stB.shift name sh }
                match keyGet stC.fnl "stimulus" with
                | Except.error e => Except.error e
                | Except.ok f =>
                    let stD := { stC with fnl := fmSet stC.fnl name f }
                    match keyGet stD.intercept "stimulus" with
                    | Except.error e => Except.error e
                    | Except.ok ic =>
                        let stE := { stD with intercept := fmSet stD.intercept name ic }
                        match keyGet stE.w "stimulus" with
                        | Except.error e => Except.error e
                        | Except.ok wv =>
                            let stF := { stE with w := fmSet stE.w name wv }
                            match stWSe name stF with
                            | Except.error e => Except.error e
                            | Except.ok stG =>
                                match keyGet stG.Xtrain "stimulus" with
                                | Except.error e => Except.error e
                                | Except.ok xv =>
                                    let stH := { stG with Xtrain := fmSet stG.Xtrain name xv }
                                    match keyGet stH.edf "stimulus" with
                                    | Except.error e => Except.error e
                                    | Except.ok ev =>
                                        let stI := { stH with edf := fmSet stH.edf name ev }
                                        match stXdevCopy name stI with
                                        | Except.error e => Except.error e
                                        | Except.ok stJ => stSBlock name stJ
  else Except.ok st

/-- The copy loop `for name in filter_names:` over the renamed list. -/
def copyLoop : List String → SubState → Except String SubState
  | [], st => Except.ok st
  | n :: rest, st =>
      match copyStim st n with
      | Except.error e => Except.error e
      | Except.ok st2 => copyLoop rest st2

/-- Lines 351-364: the pops of the `stimulus` entries.  The
`b[method].pop` is wrapped in `try/except: pass`; `w`, `intercept` and
`X['train']` pop with a possible `KeyError`; `self.X['dev']` is accessed
unconditionally (a `KeyError` when no dev split was registered) and then
popped; if `XS` is nonempty, `XS['train']`, `XS['dev']`, `S` and `P` are
popped the same way. -/
def popStage (st : SubState) : Except String SubState :=
  let st1 : SubState := { st with b := fmErase st.b "stimulus" }
  match fmPop st1.w "stimulus" with
  | Except.error e => Except.error e
  | Except.ok w2 =>
      match fmPop st1.intercept "stimulus" with
      | Except.error e => Except.error e
      | Except.ok ic2 =>
          match fmPop st1.Xtrain "stimulus" with
          | Except.error e => Except.error e
          | Except.ok xt2 =>
              match st1.Xdev with
              | none => Except.error "KeyError: dev"
              | some xd =>
                  match fmPop xd "stimulus" with
                  | Except.error e => Except.error e
                  | Except.ok xd2 =>
                      let st2 : SubState := { st1 with
                        w := w2, intercept := ic2,
                        Xtrain := xt2, Xdev := some xd2 }
                      if st2.XStrain.isSome || st2.XSdev.isSome then
                        match st2.XStrain with
                        | none => Except.error "KeyError: train"
                        | some xst =>
                            match fmPop xst "stimulus" with
                            | Except.error e => Except.error e
                            | Except.ok xst2 =>
                                match st2.XSdev with
                                | none => Except.error "KeyError: dev"
                                | some xsd =>
                                    match fmPop xsd "stimulus" with
                                    | Except.error e => Except.error e
                                    | Except.ok xsd2 =>
                                        match fmPop st2.S "stimulus" with
                                        | Except.error e => Except.error e
                                        | Except.ok s2 =>
                                            match fmPop st2.P "stimulus" with
                                            | Except.error e => Except.error e
                                            | Except.ok p2 =>
                                                Except.ok { st2 with
                                                  XStrain := some xst2,
                                                  XSdev := some xsd2,
                                                  S := s2, P := p2 }
                      else Except.ok st2

/-- Lines 315-366: the whole subunit expansion performed by
`GLM.initialize` when `num_subunits != 1`: remove `stimulus` from the
copied name list (`ValueError` when absent), prepend the aliases, run
the copy loop, run the pops, and install the new name list. -/
def subunitExpand (ns : ℕ) (st : SubState) : Except String SubState :=
  if ns = 1 then Except.ok st
  else if "stimulus" ∈ st.filter_names then
    match copyLoop (subunitNames ns ++ st.filter_names.erase "stimulus") st with
    | Except.error e => Except.error e
    | Except.ok st2 =>
        match popStage st2 with
        | Except.error e => Except.error e
        | Except.ok st3 =>
            Except.ok { st3 with
              filter_names := subunitNames ns ++ st.filter_names.erase "stimulus" }
  else Except.error "ValueError: list.remove"

/-- A concrete post-`add_design_matrix` model state with a smoothed
`stimulus` filter, a `history` filter, and a registered dev split; used
by witnesses. -/
def stW : SubState where
  filter_names := ["stimulus", "history"]
  dims := [("stimulus", [3, 2]), ("history", [4])]
  df := [("stimulus", [2, 2]), ("history", [2])]
  shift := [("stimulus", 0), ("history", 1)]
  fnl := [("stimulus", "none"), ("history", "none")]
  intercept := [("stimulus", 0), ("history", 0), ("global", 0)]
  w := [("stimulus", [1, 2]), ("history", [3])]
  wSe := none
  b := [("stimulus", [1, 2])]
  bSe := none
  Xtrain := [("stimulus", [[1]]), ("history", [[2]])]
  Xdev := some [("stimulus", [[1]]), ("history", [[2]])]
  XStrain := some [("stimulus", [[1]])]
  XSdev := some [("stimulus", [[1]])]
  S := [("stimulus", [[1]])]
  P := [("stimulus", [[0]])]
  edf := [("stimulus", 2), ("history", 1)]

/-- The state `subunitExpand 3 stW` evaluates to (its success is proved
in the C8 witness). -/
def stWout : SubState :=
  match subunitExpand 3 stW with
  | Except.ok s => s
  | Except.error _ => stW

/-- The same model state as `stW` but with no registered dev split. -/
def stW9 : SubState := { stW with Xdev := none }

/- ===================================================================
   Theorems
   ================================================================= -/

/-- Helper: a lagged call never changes an already-set burn-in. -/
theorem stepBurn_lagged (b : ℕ) (c : BurnCall) (hc : c.lag = true) :
    stepBurn (some b) c = some b := by
  simp [stepBurn, hc]

/-- Helper: a sequence of lagged calls never changes a set burn-in. -/
theorem runBurn_lagged (cs : List BurnCall) (hcs : ∀ c ∈ cs, c.lag = true) :
    ∀ b : ℕ, runBurn (some b) cs = some b := by
  induction cs with
  | nil => intro b; rfl
  | cons c cs ih =>
      intro b
      have hc : c.lag = true := hcs c (List.mem_cons_self c cs)
      have hcs2 : ∀ x ∈ cs, x.lag = true := fun x hx => hcs x (List.mem_cons_of_mem c hx)
      simp only [runBurn, List.foldl_cons, stepBurn_lagged b c hc]
      exact ih hcs2 b

/-- Helper: the first call always leaves the burn-in attribute set. -/
theorem stepBurn_none_isSome (c : BurnCall) : ∃ b, stepBurn none c = some b := by
  unfold stepBurn
  by_cases hc : c.lag = true
  · cases hb : c.burnArg with
    | none => exact ⟨c.dims0 - 1, by simp [hc, hb]⟩
    | some b => exact ⟨b, by simp [hc, hb]⟩
  · exact ⟨0, by simp [hc]⟩

/-- C1 (code_bug).  A direct evaluation of the slicing of
`GLM.compute_mle` at a one-filter model with a single feature and flat
solution `[10, 20, 30]`.  The concatenated design has 3 columns
(global intercept, per-filter intercept, one feature), yet the code
assigns the filter the coefficient 10 of the global-intercept column as
its intercept (the very coefficient also reported as the global
intercept), takes `[20]` (the true per-filter intercept) as its weights,
and never assigns the final coefficient 30: its slices end at offset 2.
Under the layout the design construction dictates, the filter's
intercept is 20 and its weight block is `[30]`. -/
theorem compute_mle_slicing_off_by_one :
    mleDesignWidth [1] = 3 ∧
    mleGlobalCode [10, 20, 30] = 10 ∧
    mleInterceptCode [10, 20, 30] [1] 0 = 10 ∧
    mleWeightsCode [10, 20, 30] [1] 0 = [20] ∧
    mleInterceptSpec [10, 20, 30] [1] 0 = 20 ∧
    mleWeightsSpec [10, 20, 30] [1] 0 = [30] ∧
    mleOffset [1] 1 = 2 :=
  ⟨rfl, rfl, rfl, rfl, rfl, rfl, rfl⟩

/-- Helper: the cleaned Poisson prediction of the code equals the
claim's `r`-prime elementwise. -/
theorem map_evToQ_clean (r : List EV) :
    (floorAt (whereNotInf r) eps20).map evToQ = rPrimeSpec r := by
  induction r with
  | nil => rfl
  | cons v r ih =>
      cases v with
      | fin q =>
          by_cases hq : EV.fin q = EV.pinf
          · exact absurd hq (by simp)
          · simpa [floorAt, whereNotInf, rPrimeSpec, evMax, evToQ, hq] using ih
      | pinf => simpa [floorAt, whereNotInf, rPrimeSpec, evMax, evToQ] using ih
      | ninf =>
          have h1 : max (0 : ℚ) eps20 = eps20 := by
            apply max_eq_right
            norm_num [eps20]
          simpa [floorAt, whereNotInf, rPrimeSpec, evMax, evToQ, h1] using ih

/-- C2 (confirmed).  The unpenalized `GLM.cost`: on `gaussian` it is
`0.5 * sum((y - r)^2)`; on `poisson` it is `-log(r÷) . y + sum(r÷)` where
`r÷` is `r` with infinite entries replaced by 0 and then floored at
`1e-20`; any other distribution raises `NotImplementedError`. -/
theorem cost_matches_spec (log : ℚ → ℚ) (y rq : List ℚ) (r : List EV)
    (d : String) (hg : d ≠ "gaussian") (hp : d ≠ "poisson") :
    cost log "gaussian" y (rq.map EV.fin)
      = Except.ok ((1 / 2) * (List.zipWith (fun yi ri => (yi - ri) ^ 2) y rq).sum) ∧
    cost log "poisson" y r
      = Except.ok (-(List.zipWith (fun ri yi => log ri * yi) (rPrimeSpec r) y).sum
          + (rPrimeSpec r).sum) ∧
    ∃ msg, cost log d y r = Except.error msg := by
  refine ⟨?_, ?_, ?_⟩
  · simp [cost, List.zipWith_map_right, evToQ]
  · have hclean := map_evToQ_clean r
    have hzip : List.zipWith (fun ri yi => log (evToQ ri) * yi)
        (floorAt (whereNotInf r) eps20) y
        = List.zipWith (fun ri yi => log ri * yi) (rPrimeSpec r) y := by
      rw [← hclean, List.zipWith_map_left]
    simp only [cost, if_neg (by decide : ¬("poisson" = "gaussian"))]
    rw [hzip, hclean]
    simp
  · exact ⟨"NotImplementedError: " ++ d, by simp [cost, hg, hp]⟩

/-- Witness for C2 at concrete inputs. -/
theorem cost_matches_spec_witness :
    ("binomial" ≠ "gaussian") ∧ ("binomial" ≠ "poisson") ∧
    (cost (fun q => q) "gaussian" [3, 4] ([1, 2].map EV.fin)
      = Except.ok ((1 / 2) * (List.zipWith (fun yi ri => (yi - ri) ^ 2) ([3, 4] : List ℚ) [1, 2]).sum) ∧
    cost (fun q => q) "poisson" [3, 4] [EV.fin 1, EV.pinf]
      = Except.ok (-(List.zipWith (fun ri yi => (fun q => q) ri * yi)
            (rPrimeSpec [EV.fin 1, EV.pinf]) ([3, 4] : List ℚ)).sum
          + (rPrimeSpec [EV.fin 1, EV.pinf]).sum) ∧
    ∃ msg, cost (fun q => q) "binomial" [3, 4] [EV.fin 1, EV.pinf] = Except.error msg) :=
  ⟨by decide, by decide,
    cost_matches_spec (fun q => q) [3, 4] [1, 2] [EV.fin 1, EV.pinf]
      "binomial" (by decide) (by decide)⟩

/-- C6 (corrected), counterexample.  At the unsupported metric name
`"foo"`, `GLM.compute_score` does not raise: it returns `None` (after
printing a message), refuting the claim that evaluation of an
unsupported metric raises. -/
theorem compute_score_unsupported_counterexample :
    compute_score "foo" 0 0 0 0 0 = PyRes.ret none ∧
    PyRes.raised (compute_score "foo" 0 0 0 0 0) = false :=
  ⟨rfl, rfl⟩

/-- C6 (corrected), amended claim: for every metric name outside the
supported set, `GLM.compute_score` raises nothing and returns `None`
(the call only prints a not-supported message). -/
theorem compute_score_unsupported_amended (metric : String) (a b c d e : ℚ)
    (h : metric ∉ supportedMetrics) :
    compute_score metric a b c d e = PyRes.ret none ∧
    PyRes.raised (compute_score metric a b c d e) = false := by
  simp only [supportedMetrics, List.mem_cons, List.mem_singleton, not_or] at h
  obtain ⟨h1, h2, h3, h4, h5, _⟩ := h
  constructor
  · simp [compute_score, h1, h2, h3, h4, h5]
  · simp [compute_score, h1, h2, h3, h4, h5, PyRes.raised]

/-- Witness for the amended C6 at the concrete metric `"foo"`. -/
theorem compute_score_unsupported_amended_witness :
    ("foo" ∉ supportedMetrics) ∧
    (compute_score "foo" 1 2 3 4 5 = PyRes.ret none ∧
     PyRes.raised (compute_score "foo" 1 2 3 4 5) = false) :=
  ⟨by decide, compute_score_unsupported_amended "foo" 1 2 3 4 5 (by decide)⟩

/-- C7 (corrected), counterexample.  First registration with
`dims[0] = 3`, lagged, sets the shared burn-in to 2; a later call with
`lag=False` overwrites it with 0, so a later call does not observe the
first-set value unchanged. -/
theorem burn_in_counterexample :
    stepBurn none ⟨3, none, true⟩ = some 2 ∧
    runBurn none [⟨3, none, true⟩, ⟨3, none, false⟩] = some 0 ∧
    (some 0 : Option ℕ) ≠ some 2 :=
  ⟨rfl, rfl, by decide⟩

/-- C7 (corrected), amended claim: the model-wide burn-in is set once by
the first registered filter (defaulting to `dims[0] - 1` when not
given); every later call with `lag=True` observes it unchanged, but any
call with `lag=False` resets it to zero. -/
theorem burn_in_amended (c0 : BurnCall) (rest : List BurnCall)
    (hrest : ∀ c ∈ rest, c.lag = true) :
    runBurn none (c0 :: rest) = stepBurn none c0 ∧
    (∀ st c, c.lag = false → stepBurn st c = some 0) ∧
    (c0.lag = true → c0.burnArg = none → stepBurn none c0 = some (c0.dims0 - 1)) ∧
    (c0.lag = true → ∀ b, c0.burnArg = some b → stepBurn none c0 = some b) := by
  refine ⟨?_, ?_, ?_, ?_⟩
  · obtain ⟨b, hb⟩ := stepBurn_none_isSome c0
    simp only [runBurn, List.foldl_cons]
    rw [hb]
    exact runBurn_lagged rest hrest b
  · intro st c hc
    simp [stepBurn, hc]
  · intro hlag harg
    simp [stepBurn, hlag, harg]
  · intro hlag b harg
    simp [stepBurn, hlag, harg]

/-- Witness for the amended C7 at a concrete call sequence. -/
theorem burn_in_amended_witness :
    (∀ c ∈ [(⟨5, some 7, true⟩ : BurnCall)], c.lag = true) ∧
    (runBurn none [⟨3, none, true⟩, ⟨5, some 7, true⟩]
        = stepBurn none ⟨3, none, true⟩ ∧
    (∀ st c, c.lag = false → stepBurn st c = some 0) ∧
    ((⟨3, none, true⟩ : BurnCall).lag = true →
      (⟨3, none, true⟩ : BurnCall).burnArg = none →
      stepBurn none ⟨3, none, true⟩ = some ((⟨3, none, true⟩ : BurnCall).dims0 - 1)) ∧
    ((⟨3, none, true⟩ : BurnCall).lag = true →
      ∀ b, (⟨3, none, true⟩ : BurnCall).burnArg = some b →
      stepBurn none ⟨3, none, true⟩ = some b)) :=
  ⟨by decide, burn_in_amended ⟨3, none, true⟩ [⟨5, some 7, true⟩] (by decide)⟩

/-- Helper: a step of the loop re-indexes the loop invariants from
`i0 + 1` to `i0` when iteration `i0` triggers no early stop. -/
theorem loopSpec_step (cfg : OptCfg) (i0 fuel : ℕ) (res : OptResult)
    (htrig : triggerB cfg i0 = false) (h : LoopSpec cfg (i0 + 1) fuel res) :
    LoopSpec cfg i0 (fuel + 1) res := by
  obtain ⟨e1, e2, e3, e4, e5⟩ := h
  refine ⟨e1, ?_, ?_, e4, e5⟩
  · intro hm
    obtain ⟨f1, f2, f3⟩ := e2 hm
    refine ⟨by omega, by omega, ?_⟩
    intro j h1 h2
    by_cases hj : j = i0
    · subst hj; exact htrig
    · exact f3 j (by omega) (by omega)
  · intro hm
    obtain ⟨f1, f2, f3, f4, f5, f6⟩ := e3 hm
    refine ⟨by omega, by omega, f3, f4, f5, ?_⟩
    intro j h1 h2
    by_cases hj : j = i0
    · subst hj; exact htrig
    · exact f6 j (by omega) h2

/-- Helper: full characterization of the optimizer loop. -/
theorem loopGo_spec (cfg : OptCfg) (fuel : ℕ) :
    ∀ (i0 : ℕ) (acc : List (ℕ × ℚ × ℚ)),
      acc.length = i0 →
      (∀ j, j < i0 → acc[j]? = some (j, cfg.costT j, cfg.costD j)) →
      LoopSpec cfg i0 fuel (loopGo cfg fuel i0 acc) := by
  induction fuel with
  | zero =>
      intro i0 acc hlen hinv
      simp only [loopGo]
      refine ⟨?_, ?_, ?_, ?_, ?_⟩
      · intro j hj
        exact hinv j (by simpa [hlen] using hj)
      · intro _
        refine ⟨by dsimp only; omega, by dsimp only; rw [hlen]; omega, ?_⟩
        intro j h1 h2
        exact absurd h2 (by omega)
      · intro h
        exact absurd rfl h
      · intro h
        exact StopReason.noConfusion h
      · intro h
        exact StopReason.noConfusion h
  | succ fuel ih =>
      intro i0 acc hlen hinv
      have hlen2 : (acc ++ [(i0, cfg.costT i0, cfg.costD i0)]).length = i0 + 1 := by
        simp [hlen]
      have hinv2 : ∀ j, j < i0 + 1 →
          (acc ++ [(i0, cfg.costT i0, cfg.costD i0)])[j]?
            = some (j, cfg.costT j, cfg.costD j) := by
        intro j hj
        rcases Nat.lt_or_ge j i0 with hj2 | hj2
        · rw [List.getElem?_append_left (by omega)]
          exact hinv j hj2
        · have hji : j = i0 := by omega
          subst hji
          rw [← hlen, List.getElem?_concat_length, hlen]
      simp only [loopGo]
      by_cases hc : cfg.tol ≠ 0 ∧ 300 < i0
      · rw [if_pos hc]
        by_cases hdev : devCondB cfg i0 = true
        · rw [if_pos hdev]
          refine ⟨?_, ?_, ?_, ?_, ?_⟩
          · intro j hj
            exact hinv2 j (by simpa [hlen2] using hj)
          · intro h
            exact StopReason.noConfusion h
          · intro _
            refine ⟨le_refl i0, by dsimp only; omega, hlen2, hc.1, hc.2, ?_⟩
            intro j h1 h2
            exact absurd h2 (by dsimp only at h1 ⊢; omega)
          · intro _
            exact hdev
          · intro h
            exact StopReason.noConfusion h
        · rw [if_neg hdev]
          by_cases htr : trainCondB cfg i0 = true
          · rw [if_pos htr]
            have hdev2 : devCondB cfg i0 = false := by
              simpa using hdev
            refine ⟨?_, ?_, ?_, ?_, ?_⟩
            · intro j hj
              exact hinv2 j (by simpa [hlen2] using hj)
            · intro h
              exact StopReason.noConfusion h
            · intro _
              refine ⟨le_refl i0, by dsimp only; omega, hlen2, hc.1, hc.2, ?_⟩
              intro j h1 h2
              exact absurd h2 (by dsimp only at h1 ⊢; omega)
            · intro h
              exact StopReason.noConfusion h
            · intro _
              exact ⟨htr, hdev2⟩
          · rw [if_neg htr]
            have htrig : triggerB cfg i0 = false := by
              have hdev2 : devCondB cfg i0 = false := by simpa using hdev
              have htr2 : trainCondB cfg i0 = false := by simpa using htr
              simp [triggerB, hdev2, htr2]
            exact loopSpec_step cfg i0 fuel _ htrig (ih (i0 + 1) _ hlen2 hinv2)
      · rw [if_neg hc]
        have htrig : triggerB cfg i0 = false := by
          have h0 : (decide (cfg.tol ≠ 0) && decide (300 < i0)) = false := by
            rcases not_and_or.mp hc with h | h <;> simp [h]
          unfold triggerB
          rw [h0, Bool.false_and]
        exact loopSpec_step cfg i0 fuel _ htrig (ih (i0 + 1) _ hlen2 hinv2)

/-- Helper: the loop spec at the start of a full run. -/
theorem optRun_spec (cfg : OptCfg) (n : ℕ) :
    LoopSpec cfg 0 n (optRun cfg n) :=
  loopGo_spec cfg n 0 [] rfl (fun j hj => absurd hj (Nat.not_lt_zero j))

/-- Helper: `np.argmin` returns an index inside a nonempty array. -/
theorem npArgmin_lt_length (l : List ℚ) (h : l ≠ []) : npArgmin l < l.length := by
  induction l with
  | nil => exact absurd rfl h
  | cons x xs ih =>
      cases xs with
      | nil => simp [npArgmin]
      | cons y rest =>
          have h2 := ih (by simp)
          simp only [npArgmin]
          by_cases hlt : (y :: rest).getD (npArgmin (y :: rest)) 0 < x
          · rw [if_pos hlt]
            simp only [List.length_cons] at h2 ⊢
            omega
          · rw [if_neg hlt]
            simp

/-- Helper: the entry at the `np.argmin` index is minimal. -/
theorem npArgmin_min (l : List ℚ) :
    ∀ j, j < l.length → l.getD (npArgmin l) 0 ≤ l.getD j 0 := by
  induction l with
  | nil =>
      intro j hj
      simp at hj
  | cons x xs ih =>
      cases xs with
      | nil =>
          intro j hj
          have hj0 : j = 0 := by
            simp only [List.length_cons, List.length_nil] at hj
            omega
          subst hj0
          simp [npArgmin]
      | cons y rest =>
          intro j hj
          simp only [npArgmin]
          by_cases hlt : (y :: rest).getD (npArgmin (y :: rest)) 0 < x
          · rw [if_pos hlt]
            cases j with
            | zero =>
                simpa [List.getD_cons_succ, List.getD_cons_zero] using le_of_lt hlt
            | succ k =>
                have hk : k < (y :: rest).length := by
                  simp only [List.length_cons] at hj ⊢
                  omega
                simpa [List.getD_cons_succ] using ih k hk
          · rw [if_neg hlt]
            cases j with
            | zero => simp
            | succ k =>
                have hk : k < (y :: rest).length := by
                  simp only [List.length_cons] at hj ⊢
                  omega
                have h1 := ih k hk
                have h2 : x ≤ (y :: rest).getD (npArgmin (y :: rest)) 0 :=
                  le_of_not_lt hlt
                simpa [List.getD_cons_succ, List.getD_cons_zero] using le_trans h2 h1

/-- C3 (confirmed).  Early stopping of `GLM.optimize`: no early stop can
occur at or before iteration 300 or with `tolerance = 0`; a `dev_stop`
exit happens exactly when a dev split exists and the consecutive
dev-cost differences over the checked window `cost_dev[i - tol : i]` are
all strictly positive (no earlier iteration having triggered); a
`train_stop` exit means the dev condition did not hold at the stopping
iteration while all train-cost differences over the window are below
`1e-5`; and a `maxiter_stop` run executed all `num_iters` iterations
with no iteration ever triggering.  The hypothesis `tolerance ≤ 301`
keeps the natural-subtraction window equal to the numpy slice at every
checked iteration. -/
theorem optimize_early_stop (cfg : OptCfg) (n : ℕ) (htol : cfg.tol ≤ 301) :
    ((optRun cfg n).reason ≠ StopReason.maxiterStop →
        300 < (optRun cfg n).iFinal ∧ cfg.tol ≠ 0) ∧
    ((optRun cfg n).reason = StopReason.devStop →
        cfg.hasDev = true ∧ devCondB cfg (optRun cfg n).iFinal = true ∧
        (∀ j, j < (optRun cfg n).iFinal → triggerB cfg j = false)) ∧
    ((optRun cfg n).reason = StopReason.trainStop →
        trainCondB cfg (optRun cfg n).iFinal = true ∧
        devCondB cfg (optRun cfg n).iFinal = false ∧
        (∀ j, j < (optRun cfg n).iFinal → triggerB cfg j = false)) ∧
    ((optRun cfg n).reason = StopReason.maxiterStop →
        (optRun cfg n).iFinal = n - 1 ∧ (∀ j, j < n → triggerB cfg j = false)) := by
  obtain ⟨e1, e2, e3, e4, e5⟩ := optRun_spec cfg n
  refine ⟨?_, ?_, ?_, ?_⟩
  · intro h
    obtain ⟨f1, f2, f3, f4, f5, f6⟩ := e3 h
    exact ⟨f5, f4⟩
  · intro h
    have hne : (optRun cfg n).reason ≠ StopReason.maxiterStop := by
      rw [h]
      exact fun hx => StopReason.noConfusion hx
    obtain ⟨f1, f2, f3, f4, f5, f6⟩ := e3 hne
    have hd := e4 h
    have hhd : cfg.hasDev = true := by
      simp only [devCondB, Bool.and_eq_true] at hd
      exact hd.1
    exact ⟨hhd, hd, fun j hj => f6 j (Nat.zero_le j) hj⟩
  · intro h
    have hne : (optRun cfg n).reason ≠ StopReason.maxiterStop := by
      rw [h]
      exact fun hx => StopReason.noConfusion hx
    obtain ⟨f1, f2, f3, f4, f5, f6⟩ := e3 hne
    obtain ⟨g1, g2⟩ := e5 h
    exact ⟨g1, g2, fun j hj => f6 j (Nat.zero_le j) hj⟩
  · intro h
    obtain ⟨f1, f2, f3⟩ := e2 h
    exact ⟨by omega, fun j hj => f3 j (Nat.zero_le j) (by omega)⟩

/-- Witness for C3 at a concrete configuration and iteration budget. -/
theorem optimize_early_stop_witness :
    cfgDev.tol ≤ 301 ∧
    (((optRun cfgDev 1).reason ≠ StopReason.maxiterStop →
        300 < (optRun cfgDev 1).iFinal ∧ cfgDev.tol ≠ 0) ∧
    ((optRun cfgDev 1).reason = StopReason.devStop →
        cfgDev.hasDev = true ∧ devCondB cfgDev (optRun cfgDev 1).iFinal = true ∧
        (∀ j, j < (optRun cfgDev 1).iFinal → triggerB cfgDev j = false)) ∧
    ((optRun cfgDev 1).reason = StopReason.trainStop →
        trainCondB cfgDev (optRun cfgDev 1).iFinal = true ∧
        devCondB cfgDev (optRun cfgDev 1).iFinal = false ∧
        (∀ j, j < (optRun cfgDev 1).iFinal → triggerB cfgDev j = false)) ∧
    ((optRun cfgDev 1).reason = StopReason.maxiterStop →
        (optRun cfgDev 1).iFinal = 1 - 1 ∧
        (∀ j, j < 1 → triggerB cfgDev j = false))) :=
  ⟨by decide, optimize_early_stop cfgDev 1 (by decide)⟩

/-- C4 (confirmed).  The retained optimizer trace `[:i+1]` never exceeds
`max_iters`, loses no recorded entry, and holds exactly the record of
iteration `j` at index `j` (one entry per executed iteration, for the
cost/metric arrays and the parameter snapshots alike); and a
`train_stop` exit certifies that all consecutive train-cost differences
over the window checked at the stopping iteration are below `1e-5`. -/
theorem optimize_trace_invariant (cfg : OptCfg) (n : ℕ) (htol : cfg.tol ≤ 301) :
    (retainedRec (optRun cfg n)).length ≤ n ∧
    retainedRec (optRun cfg n) = (optRun cfg n).trace ∧
    (∀ j, j < (retainedRec (optRun cfg n)).length →
        (retainedRec (optRun cfg n))[j]? = some (j, cfg.costT j, cfg.costD j)) ∧
    ((optRun cfg n).reason = StopReason.trainStop →
        trainCondB cfg (optRun cfg n).iFinal = true) := by
  obtain ⟨e1, e2, e3, e4, e5⟩ := optRun_spec cfg n
  have hlen : (optRun cfg n).trace.length ≤ (optRun cfg n).iFinal + 1 ∧
      (optRun cfg n).trace.length ≤ n := by
    by_cases hm : (optRun cfg n).reason = StopReason.maxiterStop
    · obtain ⟨f1, f2, f3⟩ := e2 hm
      constructor <;> omega
    · obtain ⟨f1, f2, f3, f4, f5, f6⟩ := e3 hm
      constructor <;> omega
  have hret : retainedRec (optRun cfg n) = (optRun cfg n).trace := by
    unfold retainedRec
    exact List.take_of_length_le hlen.1
  refine ⟨?_, hret, ?_, fun h => (e5 h).1⟩
  · rw [hret]
    exact hlen.2
  · intro j hj
    rw [hret] at hj ⊢
    exact e1 j hj

/-- Witness for C4 at a concrete configuration and iteration budget. -/
theorem optimize_trace_invariant_witness :
    cfgDev.tol ≤ 301 ∧
    ((retainedRec (optRun cfgDev 2)).length ≤ 2 ∧
    retainedRec (optRun cfgDev 2) = (optRun cfgDev 2).trace ∧
    (∀ j, j < (retainedRec (optRun cfgDev 2)).length →
        (retainedRec (optRun cfgDev 2))[j]? = some (j, cfgDev.costT j, cfgDev.costD j)) ∧
    ((optRun cfgDev 2).reason = StopReason.trainStop →
        trainCondB cfgDev (optRun cfgDev 2).iFinal = true)) :=
  ⟨by decide, optimize_trace_invariant cfgDev 2 (by decide)⟩

/-- C5 (confirmed).  Under the `best_dev_cost` selection policy the
returned trace index is `np.argmin` of the retained dev-cost trace
`cost_dev[:i+1]`; that index lies inside the executed trace, no executed
iteration has a strictly smaller recorded dev cost (exhaustive scan),
and the trace entry at the selected index is the parameter-snapshot
record of that same iteration. -/
theorem optimize_best_dev_cost (cfg : OptCfg) (n : ℕ) (metric : String)
    (mT mD : List ℚ) (hn : 1 ≤ n) :
    selectIdx "best_dev_cost" metric (recTrainCosts (optRun cfg n))
        (recDevCosts (optRun cfg n)) mT mD (optRun cfg n).iFinal cfg.tol
        (optRun cfg n).reason
      = npArgmin (devTraceRetained (optRun cfg n)) ∧
    npArgmin (devTraceRetained (optRun cfg n))
      < (devTraceRetained (optRun cfg n)).length ∧
    (∀ j, j < (devTraceRetained (optRun cfg n)).length →
        (devTraceRetained (optRun cfg n)).getD
            (npArgmin (devTraceRetained (optRun cfg n))) 0
          ≤ (devTraceRetained (optRun cfg n)).getD j 0) ∧
    (optRun cfg n).trace[npArgmin (devTraceRetained (optRun cfg n))]?
      = some (npArgmin (devTraceRetained (optRun cfg n)),
          cfg.costT (npArgmin (devTraceRetained (optRun cfg n))),
          cfg.costD (npArgmin (devTraceRetained (optRun cfg n)))) := by
  obtain ⟨e1, e2, e3, e4, e5⟩ := optRun_spec cfg n
  have hlen1 : 1 ≤ (optRun cfg n).trace.length := by
    by_cases hm : (optRun cfg n).reason = StopReason.maxiterStop
    · obtain ⟨f1, f2, f3⟩ := e2 hm
      omega
    · obtain ⟨f1, f2, f3, f4, f5, f6⟩ := e3 hm
      omega
  have hne : devTraceRetained (optRun cfg n) ≠ [] := by
    intro hcon
    have hl := congrArg List.length hcon
    simp only [devTraceRetained, recDevCosts, List.length_take, List.length_map,
      List.length_nil] at hl
    omega
  have harg := npArgmin_lt_length _ hne
  have h2 : (devTraceRetained (optRun cfg n)).length ≤ (optRun cfg n).trace.length := by
    simp only [devTraceRetained, recDevCosts, List.length_take, List.length_map]
    omega
  refine ⟨rfl, harg, npArgmin_min _, ?_⟩
  exact e1 _ (by omega)

/-- Witness for C5 at a concrete configuration and iteration budget. -/
theorem optimize_best_dev_cost_witness :
    1 ≤ 2 ∧
    (selectIdx "best_dev_cost" "corrcoef" (recTrainCosts (optRun cfgDev 2))
        (recDevCosts (optRun cfgDev 2)) [] [] (optRun cfgDev 2).iFinal cfgDev.tol
        (optRun cfgDev 2).reason
      = npArgmin (devTraceRetained (optRun cfgDev 2)) ∧
    npArgmin (devTraceRetained (optRun cfgDev 2))
      < (devTraceRetained (optRun cfgDev 2)).length ∧
    (∀ j, j < (devTraceRetained (optRun cfgDev 2)).length →
        (devTraceRetained (optRun cfgDev 2)).getD
            (npArgmin (devTraceRetained (optRun cfgDev 2))) 0
          ≤ (devTraceRetained (optRun cfgDev 2)).getD j 0) ∧
    (optRun cfgDev 2).trace[npArgmin (devTraceRetained (optRun cfgDev 2))]?
      = some (npArgmin (devTraceRetained (optRun cfgDev 2)),
          cfgDev.costT (npArgmin (devTraceRetained (optRun cfgDev 2))),
          cfgDev.costD (npArgmin (devTraceRetained (optRun cfgDev 2))))) :=
  ⟨by decide, optimize_best_dev_cost cfgDev 2 "corrcoef" [] [] (by decide)⟩

/-- C10 (confirmed).  When no dev-split response exists, `GLM.fit`
replaces any requested selection policy by `last` before calling the
optimizer, a `dev_stop` exit is impossible, and the `last` selection
returns the final executed iterate: the selected index is the loop's
final iteration, which is the last index of the executed trace. -/
theorem fit_no_dev_returns_last (cfg : OptCfg) (n : ℕ)
    (requested metric : String) (mT mD : List ℚ)
    (hdev : cfg.hasDev = false) (hn : 1 ≤ n) :
    fitReturnModel cfg.hasDev requested = "last" ∧
    selectIdx (fitReturnModel cfg.hasDev requested) metric
        (recTrainCosts (optRun cfg n)) (recDevCosts (optRun cfg n)) mT mD
        (optRun cfg n).iFinal cfg.tol (optRun cfg n).reason
      = (optRun cfg n).iFinal ∧
    (optRun cfg n).trace.length = (optRun cfg n).iFinal + 1 ∧
    (optRun cfg n).trace[(optRun cfg n).iFinal]?
      = some ((optRun cfg n).iFinal, cfg.costT (optRun cfg n).iFinal,
          cfg.costD (optRun cfg n).iFinal) := by
  obtain ⟨e1, e2, e3, e4, e5⟩ := optRun_spec cfg n
  have hfrm : fitReturnModel cfg.hasDev requested = "last" := by
    simp [fitReturnModel, hdev]
  have hnd : (optRun cfg n).reason ≠ StopReason.devStop := by
    intro h
    have hd := e4 h
    simp [devCondB, hdev] at hd
  have hsel : selectIdx "last" metric (recTrainCosts (optRun cfg n))
      (recDevCosts (optRun cfg n)) mT mD (optRun cfg n).iFinal cfg.tol
      (optRun cfg n).reason = (optRun cfg n).iFinal := by
    unfold selectIdx
    rw [if_neg (by decide), if_neg (by decide), if_neg (by decide),
      if_neg (by decide), if_pos rfl, if_neg hnd]
  have hlen : (optRun cfg n).trace.length = (optRun cfg n).iFinal + 1 := by
    by_cases hm : (optRun cfg n).reason = StopReason.maxiterStop
    · obtain ⟨f1, f2, f3⟩ := e2 hm
      omega
    · obtain ⟨f1, f2, f3, f4, f5, f6⟩ := e3 hm
      exact f3
  refine ⟨hfrm, by rw [hfrm]; exact hsel, hlen, ?_⟩
  exact e1 _ (by omega)

/-- Witness for C10 at a concrete no-dev configuration. -/
theorem fit_no_dev_returns_last_witness :
    cfgNoDev.hasDev = false ∧ 1 ≤ 2 ∧
    (fitReturnModel cfgNoDev.hasDev "best_dev_cost" = "last" ∧
    selectIdx (fitReturnModel cfgNoDev.hasDev "best_dev_cost") "corrcoef"
        (recTrainCosts (optRun cfgNoDev 2)) (recDevCosts (optRun cfgNoDev 2)) [] []
        (optRun cfgNoDev 2).iFinal cfgNoDev.tol (optRun cfgNoDev 2).reason
      = (optRun cfgNoDev 2).iFinal ∧
    (optRun cfgNoDev 2).trace.length = (optRun cfgNoDev 2).iFinal + 1 ∧
    (optRun cfgNoDev 2).trace[(optRun cfgNoDev 2).iFinal]?
      = some ((optRun cfgNoDev 2).iFinal, cfgNoDev.costT (optRun cfgNoDev 2).iFinal,
          cfgNoDev.costD (optRun cfgNoDev 2).iFinal)) :=
  ⟨by decide, by decide,
    fit_no_dev_returns_last cfgNoDev 2 "best_dev_cost" "corrcoef" [] []
      (by decide) (by decide)⟩

/-- Helper: lookup on a cons cell. -/
theorem fmGet_cons {α : Type} (p : String × α) (rest : Fm α) (k : String) :
    fmGet (p :: rest) k = if p.1 == k then some p.2 else fmGet rest k := by
  unfold fmGet
  rw [List.find?_cons]
  by_cases hp : (p.1 == k) = true
  · rw [hp]
    simp
  · have hp2 : (p.1 == k) = false := by simpa using hp
    rw [hp2]
    simp

/-- Helper: erasure on a cons cell. -/
theorem fmErase_cons {α : Type} (p : String × α) (rest : Fm α) (k : String) :
    fmErase (p :: rest) k = if p.1 == k then fmErase rest k else p :: fmErase rest k := by
  unfold fmErase
  by_cases hp : (p.1 == k) = true
  · simp [List.filter_cons, hp]
  · have hp2 : (p.1 == k) = false := by simpa using hp
    simp [List.filter_cons, hp2]

/-- Helper: erasing one key leaves every other key unchanged. -/
theorem fmGet_erase_other {α : Type} (m : Fm α) (k k2 : String) (h : k2 ≠ k) :
    fmGet (fmErase m k) k2 = fmGet m k2 := by
  induction m with
  | nil => rfl
  | cons p rest ih =>
      rw [fmErase_cons]
      by_cases hp : (p.1 == k) = true
      · have hpk : p.1 = k := by simpa using hp
        have hk2 : (p.1 == k2) = false := by
          rw [beq_eq_false_iff_ne, hpk]
          exact Ne.symm h
        rw [if_pos hp, ih, fmGet_cons, hk2]
        simp
      · rw [if_neg hp, fmGet_cons, fmGet_cons, ih]

/-- Helper: assignment makes the assigned key hold the new value. -/
theorem fmGet_set_same {α : Type} (m : Fm α) (k : String) (v : α) :
    fmGet (fmSet m k v) k = some v := by
  unfold fmSet
  rw [fmGet_cons]
  simp

/-- Helper: assignment leaves every other key unchanged. -/
theorem fmGet_set_other {α : Type} (m : Fm α) (k k2 : String) (v : α) (h : k2 ≠ k) :
    fmGet (fmSet m k v) k2 = fmGet m k2 := by
  unfold fmSet
  rw [fmGet_cons]
  have hk : (k == k2) = false := by
    rw [beq_eq_false_iff_ne]
    exact Ne.symm h
  simp only [hk]
  simp [fmGet_erase_other m k k2 h]

/-- Helper: a successful subscript read inverts to a lookup. -/
theorem keyGet_ok {α : Type} (m : Fm α) (k : String) (v : α)
    (h : keyGet m k = Except.ok v) : fmGet m k = some v := by
  unfold keyGet at h
  split at h
  · rename_i v2 hv
    injection h with h2
    subst h2
    exact hv
  · exact Except.noConfusion h

/-- Helper: the `w_se` copy stage changes no core field. -/
theorem stWSe_ok (name : String) (st st2 : SubState)
    (h : stWSe name st = Except.ok st2) :
    st2.dims = st.dims ∧ st2.shift = st.shift ∧ st2.fnl = st.fnl ∧
    st2.filter_names = st.filter_names ∧ st2.Xdev = st.Xdev := by
  unfold stWSe at h
  split at h
  · injection h with h2
    subst h2
    exact ⟨rfl, rfl, rfl, rfl, rfl⟩
  · split at h
    · exact Except.noConfusion h
    · injection h with h2
      subst h2
      exact ⟨rfl, rfl, rfl, rfl, rfl⟩

/-- Helper: the `b_se` copy stage changes no core field. -/
theorem stBSe_ok (name : String) (st st2 : SubState)
    (h : stBSe name st = Except.ok st2) :
    st2.dims = st.dims ∧ st2.shift = st.shift ∧ st2.fnl = st.fnl ∧
    st2.filter_names = st.filter_names ∧ st2.Xdev = st.Xdev := by
  unfold stBSe at h
  split at h
  · injection h with h2
    subst h2
    exact ⟨rfl, rfl, rfl, rfl, rfl⟩
  · split at h
    · exact Except.noConfusion h
    · injection h with h2
      subst h2
      exact ⟨rfl, rfl, rfl, rfl, rfl⟩

/-- Helper: the `XS['train']` copy stage changes no core field. -/
theorem stXSt_ok (name : String) (st st2 : SubState)
    (h : stXSt name st = Except.ok st2) :
    st2.dims = st.dims ∧ st2.shift = st.shift ∧ st2.fnl = st.fnl ∧
    st2.filter_names = st.filter_names ∧ st2.Xdev = st.Xdev := by
  unfold stXSt at h
  split at h
  · exact Except.noConfusion h
  · split at h
    · exact Except.noConfusion h
    · injection h with h2
      subst h2
      exact ⟨rfl, rfl, rfl, rfl, rfl⟩

/-- Helper: the `XS['dev']` copy stage changes no core field. -/
theorem stXSd_ok (name : String) (st st2 : SubState)
    (h : stXSd name st = Except.ok st2) :
    st2.dims = st.dims ∧ st2.shift = st.shift ∧ st2.fnl = st.fnl ∧
    st2.filter_names = st.filter_names ∧ st2.Xdev = st.Xdev := by
  unfold stXSd at h
  split at h
  · injection h with h2
    subst h2
    exact ⟨rfl, rfl, rfl, rfl, rfl⟩
  · split at h
    · exact Except.noConfusion h
    · injection h with h2
      subst h2
      exact ⟨rfl, rfl, rfl, rfl, rfl⟩

/-- Helper: the spline-copy block changes no core field. -/
theorem stSBlock_ok (name : String) (st st2 : SubState)
    (h : stSBlock name st = Except.ok st2) :
    st2.dims = st.dims ∧ st2.shift = st.shift ∧ st2.fnl = st.fnl ∧
    st2.filter_names = st.filter_names ∧ st2.Xdev = st.Xdev := by
  unfold stSBlock at h
  split at h
  · split at h
    · exact Except.noConfusion h
    · rename_i bv hbv
      split at h
      · exact Except.noConfusion h
      · rename_i stB hB
        split at h
        · exact Except.noConfusion h
        · rename_i stC hC
          split at h
          · exact Except.noConfusion h
          · rename_i stD hD
            split at h
            · exact Except.noConfusion h
            · rename_i pv hpv
              split at h
              · exact Except.noConfusion h
              · rename_i sv hsv
                injection h with h2
                subst h2
                obtain ⟨b1, b2, b3, b4, b5⟩ := stBSe_ok name _ _ hB
                obtain ⟨c1, c2, c3, c4, c5⟩ := stXSt_ok name _ _ hC
                obtain ⟨d1, d2, d3, d4, d5⟩ := stXSd_ok name _ _ hD
                refine ⟨?_, ?_, ?_, ?_, ?_⟩ <;>
                  simp only [d1, d2, d3, d4, d5, c1, c2, c3, c4, c5,
                    b1, b2, b3, b4, b5]
  · injection h with h2
    subst h2
    exact ⟨rfl, rfl, rfl, rfl, rfl⟩

/-- Helper: the `X['dev']` copy stage changes no core field other than
`Xdev`, and preserves the absence of a dev split. -/
theorem stXdevCopy_ok (name : String) (st st2 : SubState)
    (h : stXdevCopy name st = Except.ok st2) :
    st2.dims = st.dims ∧ st2.shift = st.shift ∧ st2.fnl = st.fnl ∧
    st2.filter_names = st.filter_names ∧
    (st.Xdev = none → st2.Xdev = none) := by
  unfold stXdevCopy at h
  split at h
  · injection h with h2
    subst h2
    exact ⟨rfl, rfl, rfl, rfl, fun hd => hd⟩
  · rename_i m hm
    split at h
    · exact Except.noConfusion h
    · injection h with h2
      subst h2
      refine ⟨rfl, rfl, rfl, rfl, fun hd => ?_⟩
      rw [hm] at hd
      exact Option.noConfusion hd

/-- Helper: full characterization of one copy-loop iteration: the
filter-name list is untouched, a missing dev split stays missing, a
non-matching name changes nothing, and a matching name receives the
`stimulus` filter's dims, shift and nonlinearity (the other copied
attributes are not needed by the claims). -/
theorem copyStim_ok (st st2 : SubState) (name : String)
    (h : copyStim st name = Except.ok st2) :
    st2.filter_names = st.filter_names ∧
    (st.Xdev = none → st2.Xdev = none) ∧
    (containsStim name = false → st2 = st) ∧
    (containsStim name = true →
      ∃ d sh f, fmGet st.dims "stimulus" = some d ∧
        fmGet st.shift "stimulus" = some sh ∧
        fmGet st.fnl "stimulus" = some f ∧
        st2.dims = fmSet st.dims name d ∧
        st2.shift = fmSet st.shift name sh ∧
        st2.fnl = fmSet st.fnl name f) := by
  unfold copyStim at h
  by_cases hc : containsStim name = true
  · rw [if_pos hc] at h
    split at h
    · exact Except.noConfusion h
    · rename_i d h1
      try dsimp only at h
      split at h
      · exact Except.noConfusion h
      · rename_i d2 h2
        try dsimp only at h
        split at h
        · exact Except.noConfusion h
        · rename_i sh h3
          try dsimp only at h
          split at h
          · exact Except.noConfusion h
          · rename_i f h4
            try dsimp only at h
            split at h
            · exact Except.noConfusion h
            · rename_i ic h5
              try dsimp only at h
              split at h
              · exact Except.noConfusion h
              · rename_i wv h6
                try dsimp only at h
                split at h
                · exact Except.noConfusion h
                · rename_i stG hG
                  split at h
                  · exact Except.noConfusion h
                  · rename_i xv h7
                    try dsimp only at h
                    split at h
                    · exact Except.noConfusion h
                    · rename_i ev h8
                      try dsimp only at h
                      split at h
                      · exact Except.noConfusion h
                      · rename_i stJ hJ
                        obtain ⟨s1, s2, s3, s4, s5⟩ := stSBlock_ok name _ _ h
                        obtain ⟨j1, j2, j3, j4, j5⟩ := stXdevCopy_ok name _ _ hJ
                        obtain ⟨g1, g2, g3, g4, g5⟩ := stWSe_ok name _ _ hG
                        refine ⟨?_, ?_, ?_, ?_⟩
                        · rw [s4, j4]
                          exact g4
                        · intro hdev
                          have hI : stJ.Xdev = none := by
                            apply j5
                            rw [g5]
                            exact hdev
                          rw [s5]
                          exact hI
                        · intro hcf
                          rw [hc] at hcf
                          exact Bool.noConfusion hcf
                        · intro _
                          refine ⟨d, sh, f, keyGet_ok _ _ _ h1,
                            keyGet_ok _ _ _ h3, keyGet_ok _ _ _ h4, ?_, ?_, ?_⟩
                          · rw [s1, j1]
                            exact g1
                          · rw [s2, j2]
                            exact g2
                          · rw [s3, j3]
                            exact g3
  · have hcf : containsStim name = false := by simpa using hc
    rw [if_neg hc] at h
    injection h with h2
    subst h2
    exact ⟨rfl, fun hd => hd, fun _ => rfl,
      fun ht => absurd ht (by rw [hcf]; exact Bool.noConfusion)⟩

/-- Helper: the copy loop never changes the filter-name list. -/
theorem copyLoop_names (names : List String) :
    ∀ st st2, copyLoop names st = Except.ok st2 →
      st2.filter_names = st.filter_names := by
  induction names with
  | nil =>
      intro st st2 h
      simp only [copyLoop] at h
      injection h with h2
      subst h2
      rfl
  | cons n rest ih =>
      intro st st2 h
      simp only [copyLoop] at h
      split at h
      · exact Except.noConfusion h
      · rename_i stMid hMid
        rw [ih stMid st2 h, (copyStim_ok st stMid n hMid).1]

/-- Helper: the copy loop preserves the absence of a dev split. -/
theorem copyLoop_XdevNone (names : List String) :
    ∀ st st2, copyLoop names st = Except.ok st2 → st.Xdev = none →
      st2.Xdev = none := by
  induction names with
  | nil =>
      intro st st2 h hd
      simp only [copyLoop] at h
      injection h with h2
      subst h2
      exact hd
  | cons n rest ih =>
      intro st st2 h hd
      simp only [copyLoop] at h
      split at h
      · exact Except.noConfusion h
      · rename_i stMid hMid
        exact ih stMid st2 h ((copyStim_ok st stMid n hMid).2.1 hd)

/-- Helper: the copy loop leaves the dims/shift/nonlinearity entries of
any key outside the iterated name list unchanged. -/
theorem copyLoop_keep (names : List String) :
    ∀ st st2 k, copyLoop names st = Except.ok st2 →
      (∀ n ∈ names, n ≠ k) →
      fmGet st2.dims k = fmGet st.dims k ∧
      fmGet st2.shift k = fmGet st.shift k ∧
      fmGet st2.fnl k = fmGet st.fnl k := by
  induction names with
  | nil =>
      intro st st2 k h _
      simp only [copyLoop] at h
      injection h with h2
      subst h2
      exact ⟨rfl, rfl, rfl⟩
  | cons n rest ih =>
      intro st st2 k h hk
      simp only [copyLoop] at h
      split at h
      · exact Except.noConfusion h
      · rename_i stMid hMid
        have hknk : k ≠ n := Ne.symm (hk n (List.mem_cons_self n rest))
        have hstep : fmGet stMid.dims k = fmGet st.dims k ∧
            fmGet stMid.shift k = fmGet st.shift k ∧
            fmGet stMid.fnl k = fmGet st.fnl k := by
          obtain ⟨m1, m2, m3, m4⟩ := copyStim_ok st stMid n hMid
          by_cases hcn : containsStim n = true
          · obtain ⟨d, sh, f, hd1, hs1, hf1, e1, e2, e3⟩ := m4 hcn
            exact ⟨by rw [e1, fmGet_set_other _ _ _ _ hknk],
              by rw [e2, fmGet_set_other _ _ _ _ hknk],
              by rw [e3, fmGet_set_other _ _ _ _ hknk]⟩
          · have hmeq := m3 (by simpa using hcn)
            rw [hmeq]
            exact ⟨rfl, rfl, rfl⟩
        obtain ⟨k1, k2, k3⟩ :=
          ih stMid st2 k h (fun m hm => hk m (List.mem_cons_of_mem n hm))
        exact ⟨by rw [k1, hstep.1], by rw [k2, hstep.2.1], by rw [k3, hstep.2.2]⟩

/-- Helper: after the copy loop, every `stimulus`-containing iterated
name holds the original `stimulus` dims, shift and nonlinearity. -/
theorem copyLoop_alias (names : List String) :
    ∀ st st2 name, copyLoop names st = Except.ok st2 → name ∈ names →
      containsStim name = true → (∀ n ∈ names, n ≠ "stimulus") →
      names.Nodup →
      fmGet st2.dims name = fmGet st.dims "stimulus" ∧
      fmGet st2.shift name = fmGet st.shift "stimulus" ∧
      fmGet st2.fnl name = fmGet st.fnl "stimulus" := by
  induction names with
  | nil =>
      intro st st2 name _ hmem
      exact absurd hmem (List.not_mem_nil name)
  | cons n rest ih =>
      intro st st2 name h hmem hc hstim hnd
      simp only [copyLoop] at h
      split at h
      · exact Except.noConfusion h
      · rename_i stMid hMid
        have hnstim : n ≠ "stimulus" := hstim n (List.mem_cons_self n rest)
        rcases List.mem_cons.mp hmem with heq | hmem2
        · subst heq
          obtain ⟨m1, m2, m3, m4⟩ := copyStim_ok st stMid name hMid
          obtain ⟨d, sh, f, hd1, hs1, hf1, e1, e2, e3⟩ := m4 hc
          have hrest : ∀ m ∈ rest, m ≠ name := by
            intro m hm hmeq
            subst hmeq
            exact (List.nodup_cons.mp hnd).1 hm
          obtain ⟨k1, k2, k3⟩ := copyLoop_keep rest stMid st2 name h hrest
          refine ⟨?_, ?_, ?_⟩
          · rw [k1, e1, fmGet_set_same, hd1]
          · rw [k2, e2, fmGet_set_same, hs1]
          · rw [k3, e3, fmGet_set_same, hf1]
        · obtain ⟨m1, m2, m3, m4⟩ := copyStim_ok st stMid n hMid
          have hpres : fmGet stMid.dims "stimulus" = fmGet st.dims "stimulus" ∧
              fmGet stMid.shift "stimulus" = fmGet st.shift "stimulus" ∧
              fmGet stMid.fnl "stimulus" = fmGet st.fnl "stimulus" := by
            by_cases hcn : containsStim n = true
            · obtain ⟨d, sh, f, hd1, hs1, hf1, e1, e2, e3⟩ := m4 hcn
              exact ⟨by rw [e1, fmGet_set_other _ _ _ _ (Ne.symm hnstim)],
                by rw [e2, fmGet_set_other _ _ _ _ (Ne.symm hnstim)],
                by rw [e3, fmGet_set_other _ _ _ _ (Ne.symm hnstim)]⟩
            · have hmeq := m3 (by simpa using hcn)
              rw [hmeq]
              exact ⟨rfl, rfl, rfl⟩
          obtain ⟨k1, k2, k3⟩ := ih stMid st2 name h hmem2 hc
            (fun m hm => hstim m (List.mem_cons_of_mem n hm))
            (List.nodup_cons.mp hnd).2
          exact ⟨by rw [k1, hpres.1], by rw [k2, hpres.2.1],
            by rw [k3, hpres.2.2]⟩

/-- Helper: the pop stage never touches the dims/shift/nonlinearity maps
or the filter-name list. -/
theorem popStage_core (st st2 : SubState) (h : popStage st = Except.ok st2) :
    st2.dims = st.dims ∧ st2.shift = st.shift ∧ st2.fnl = st.fnl ∧
    st2.filter_names = st.filter_names := by
  unfold popStage at h
  try dsimp only at h
  split at h
  · exact Except.noConfusion h
  · split at h
    · exact Except.noConfusion h
    · split at h
      · exact Except.noConfusion h
      · split at h
        · exact Except.noConfusion h
        · split at h
          · exact Except.noConfusion h
          · split at h
            · split at h
              · exact Except.noConfusion h
              · split at h
                · exact Except.noConfusion h
                · split at h
                  · exact Except.noConfusion h
                  · split at h
                    · exact Except.noConfusion h
                    · split at h
                      · exact Except.noConfusion h
                      · split at h
                        · exact Except.noConfusion h
                        · injection h with h2
                          subst h2
                          exact ⟨rfl, rfl, rfl, rfl⟩
            · injection h with h2
              subst h2
              exact ⟨rfl, rfl, rfl, rfl⟩

/-- Helper: with no dev design-matrix dict, the pop stage cannot finish:
the unguarded `self.X['dev']` access fails. -/
theorem popStage_noDev (st : SubState) (hd : st.Xdev = none) :
    ∀ st2, popStage st ≠ Except.ok st2 := by
  intro st2 h
  unfold popStage at h
  try dsimp only at h
  split at h
  · exact Except.noConfusion h
  · split at h
    · exact Except.noConfusion h
    · split at h
      · exact Except.noConfusion h
      · rw [hd] at h
        exact Except.noConfusion h

/-- C9 (confirmed).  `initialize` with `num_subunits != 1` pops the
dev-split design-matrix entry for `stimulus` unconditionally, so on a
model with no registered dev design matrix the expansion never
completes: the unguarded `self.X['dev']` access raises an uncaught
`KeyError` (an `Except.error` in the embedding) instead of returning an
expanded state. -/
theorem initialize_no_dev_keyerror (ns : ℕ) (st : SubState)
    (hns : ns ≠ 1) (hdev : st.Xdev = none) :
    (∀ st2, subunitExpand ns st ≠ Except.ok st2) ∧
    (∃ msg, subunitExpand ns st = Except.error msg) := by
  have hmain : ∀ st2, subunitExpand ns st ≠ Except.ok st2 := by
    intro st2 h
    unfold subunitExpand at h
    rw [if_neg hns] at h
    by_cases hm : "stimulus" ∈ st.filter_names
    · rw [if_pos hm] at h
      split at h
      · exact Except.noConfusion h
      · rename_i stMid hMid
        split at h
        · exact Except.noConfusion h
        · rename_i st3 h3
          exact popStage_noDev stMid
            (copyLoop_XdevNone _ st stMid hMid hdev) st3 h3
    · rw [if_neg hm] at h
      exact Except.noConfusion h
  refine ⟨hmain, ?_⟩
  cases hE : subunitExpand ns st with
  | error m => exact ⟨m, rfl⟩
  | ok s => exact absurd hE (hmain s)

/-- Witness for C9 at a concrete dev-less model state. -/
theorem initialize_no_dev_keyerror_witness :
    ((3 : ℕ) ≠ 1) ∧ stW9.Xdev = none ∧
    ((∀ st2, subunitExpand 3 stW9 ≠ Except.ok st2) ∧
     (∃ msg, subunitExpand 3 stW9 = Except.error msg)) :=
  ⟨by decide, rfl, initialize_no_dev_keyerror 3 stW9 (by decide) rfl⟩

/-- C8 (confirmed).  A completed subunit expansion with
`num_subunits = 3` on a model whose only `stimulus`-containing filter
name is `stimulus` itself: the new filter-name list is exactly the three
aliases followed by the remaining names, it contains `stimulus_s0`,
`stimulus_s1` and `stimulus_s2` and no longer contains `stimulus`, and
every alias carries the original `stimulus` filter's dims, shift and
filter nonlinearity. -/
theorem initialize_subunit_renaming (st st2 : SubState)
    (h : subunitExpand 3 st = Except.ok st2)
    (hone : st.filter_names.count "stimulus" = 1)
    (hnd : (subunitNames 3 ++ st.filter_names.erase "stimulus").Nodup)
    (hothers : ∀ nm ∈ st.filter_names.erase "stimulus",
        containsStim nm = false) :
    st2.filter_names = subunitNames 3 ++ st.filter_names.erase "stimulus" ∧
    "stimulus_s0" ∈ st2.filter_names ∧
    "stimulus_s1" ∈ st2.filter_names ∧
    "stimulus_s2" ∈ st2.filter_names ∧
    "stimulus" ∉ st2.filter_names ∧
    (∀ i, i < 3 →
      fmGet st2.dims (subName i) = fmGet st.dims "stimulus" ∧
      fmGet st2.shift (subName i) = fmGet st.shift "stimulus" ∧
      fmGet st2.fnl (subName i) = fmGet st.fnl "stimulus") := by
  have hmem : "stimulus" ∈ st.filter_names :=
    List.count_pos_iff.mp (by omega)
  unfold subunitExpand at h
  rw [if_neg (by decide : ¬((3 : ℕ) = 1)), if_pos hmem] at h
  split at h
  · exact Except.noConfusion h
  · rename_i stMid hMid
    split at h
    · exact Except.noConfusion h
    · rename_i st3 h3
      injection h with h2
      subst h2
      obtain ⟨p1, p2, p3, p4⟩ := popStage_core stMid st3 h3
      have hnames : subunitNames 3 = ["stimulus_s0", "stimulus_s1", "stimulus_s2"] := by
        decide
      have hstimAll : ∀ n ∈ subunitNames 3 ++ st.filter_names.erase "stimulus",
          n ≠ "stimulus" := by
        intro n hn
        rcases List.mem_append.mp hn with h1 | h1
        · rw [hnames] at h1
          simp only [List.mem_cons, List.not_mem_nil, or_false] at h1
          rcases h1 with h1 | h1 | h1 <;> (subst h1; decide)
        · intro hneq
          subst hneq
          exact absurd (hothers _ h1) (by decide)
      refine ⟨rfl, ?_, ?_, ?_, ?_, ?_⟩
      · exact List.mem_append_left _ (by rw [hnames]; decide)
      · exact List.mem_append_left _ (by rw [hnames]; decide)
      · exact List.mem_append_left _ (by rw [hnames]; decide)
      · intro hin
        rcases List.mem_append.mp hin with h1 | h1
        · rw [hnames] at h1
          exact absurd h1 (by decide)
        · have hcz := List.count_erase_self "stimulus" st.filter_names
          rw [hone] at hcz
          exact absurd h1 (List.count_eq_zero.mp (by omega))
      · intro i hi
        have hcontains : containsStim (subName i) = true := by
          interval_cases i <;> decide
        have hmem2 : subName i ∈ subunitNames 3 := by
          interval_cases i <;> (rw [hnames]; decide)
        obtain ⟨a1, a2, a3⟩ := copyLoop_alias _ st stMid (subName i) hMid
          (List.mem_append_left _ hmem2) hcontains hstimAll hnd
        refine ⟨?_, ?_, ?_⟩
        · show fmGet st3.dims (subName i) = fmGet st.dims "stimulus"
          rw [p1, a1]
        · show fmGet st3.shift (subName i) = fmGet st.shift "stimulus"
          rw [p2, a2]
        · show fmGet st3.fnl (subName i) = fmGet st.fnl "stimulus"
          rw [p3, a3]

/-- Witness for C8 at a concrete two-filter model state with a dev
split. -/
theorem initialize_subunit_renaming_witness :
    subunitExpand 3 stW = Except.ok stWout ∧
    stW.filter_names.count "stimulus" = 1 ∧
    (subunitNames 3 ++ stW.filter_names.erase "stimulus").Nodup ∧
    (∀ nm ∈ stW.filter_names.erase "stimulus", containsStim nm = false) ∧
    (stWout.filter_names = subunitNames 3 ++ stW.filter_names.erase "stimulus" ∧
    "stimulus_s0" ∈ stWout.filter_names ∧
    "stimulus_s1" ∈ stWout.filter_names ∧
    "stimulus_s2" ∈ stWout.filter_names ∧
    "stimulus" ∉ stWout.filter_names ∧
    (∀ i, i < 3 →
      fmGet stWout.dims (subName i) = fmGet stW.dims "stimulus" ∧
      fmGet stWout.shift (subName i) = fmGet stW.shift "stimulus" ∧
      fmGet stWout.fnl (subName i) = fmGet stW.fnl "stimulus")) :=
  ⟨by rfl, by decide, by decide, by decide,
    initialize_subunit_renaming stW stWout (by rfl) (by decide)
      (by decide) (by decide)⟩
